import Mathlib

/-!
Verification of the in-memory trust-metadata store (storage/memorystore.go).

The store keeps two Go maps from role names to byte blobs: `data` (plain and
version-prefixed names) and `consistent` (content-addressed names).  Go maps
are embedded as association lists whose update operation removes every older
binding of the key, so lookup and key-set behaviour coincide with Go maps.

External collaborators that live outside the translated file are modelled as
parameters or as spec-modelled constants:
 - the sha256 digest together with utils.ConsistentName is one abstract
   function `cname : String -> Blob -> String` from a role name and a blob to
   the content-addressed name;
 - the JSON envelope parser (encoding\/json into data.SignedMeta) is one
   abstract function `pv : Blob -> Option Int` returning the version field on
   a successful parse;
 - the constants NoSizeLimit and notary.MaxDownloadSize are defined below.
-/

set_option autoImplicit false

namespace MemStore

/-- A metadata blob: one byte sequence, one Nat per byte. -/
abbrev Blob := List Nat

/-- A Go map from role-name strings to blobs, embedded as an association
list in which the most recent binding of a key is the only one present. -/
abbrev NameMap := List (String × Blob)

/-- Lookup in the embedded map: the first binding of the key, as in a Go map
read with the comma-ok idiom. -/
def mapGet (m : NameMap) (k : String) : Option Blob :=
  match m with
  | [] => none
  | p :: rest => if p.1 = k then some p.2 else mapGet rest k

/-- Deletion of every binding of a key, as in the Go builtin delete. -/
def mapDel (m : NameMap) (k : String) : NameMap :=
  match m with
  | [] => []
  | p :: rest => if p.1 = k then mapDel rest k else p :: mapDel rest k

/-- Go map assignment: the key is bound to the new value and every older
binding of it disappears. -/
def mapSet (m : NameMap) (k : String) (v : Blob) : NameMap :=
  (k, v) :: mapDel m k

theorem mapGet_del_self (m : NameMap) (k : String) :
    mapGet (mapDel m k) k = none := by
  induction m with
  | nil => rfl
  | cons p rest ih =>
      by_cases hp : p.1 = k <;> simp [mapDel, mapGet, hp, ih]

theorem mapGet_del_ne (m : NameMap) (k k2 : String) (h : k2 ≠ k) :
    mapGet (mapDel m k) k2 = mapGet m k2 := by
  have hkk : ¬ (k = k2) := fun hq => h hq.symm
  induction m with
  | nil => rfl
  | cons p rest ih =>
      by_cases hp : p.1 = k <;> simp [mapDel, mapGet, hp, h, hkk, ih]

theorem mapGet_set_self (m : NameMap) (k : String) (v : Blob) :
    mapGet (mapSet m k v) k = some v := by
  simp [mapSet, mapGet]

theorem mapGet_set_ne (m : NameMap) (k k2 : String) (v : Blob) (h : k2 ≠ k) :
    mapGet (mapSet m k v) k2 = mapGet m k2 := by
  have hkk : ¬ (k = k2) := fun hq => h hq.symm
  simp [mapSet, mapGet, hkk, mapGet_del_ne m k k2 h]

theorem mapGet_mem (m : NameMap) (k : String) (v : Blob)
    (h : mapGet m k = some v) : (k, v) ∈ m := by
  induction m with
  | nil => simp [mapGet] at h
  | cons p rest ih =>
      obtain ⟨a, b⟩ := p
      by_cases hp : a = k
      · simp [mapGet, hp] at h
        rw [← hp, ← h]
        exact List.mem_cons_self _ _
      · simp [mapGet, hp] at h
        exact List.mem_cons_of_mem _ (ih h)

theorem mapGet_ne_none_iff (m : NameMap) (k : String) :
    mapGet m k ≠ none ↔ k ∈ m.map Prod.fst := by
  induction m with
  | nil => simp [mapGet]
  | cons p rest ih =>
      by_cases hp : p.1 = k
      · simp [mapGet, hp]
      · have hne : ¬ (k = p.1) := fun hq => hp hq.symm
        simp [mapGet, hp, hne, ih]

/-- Modelled from the spec: the sentinel size constant NoSizeLimit is
declared in the storage package outside the translated file.  The spec calls
it the sentinel meaning no caller-specified limit; it is the distinguished
int64 value -1, which can never be a legal byte count. -/
def NoSizeLimit : Int := -1

/-- Modelled from the spec: the fixed maximum download size constant
notary.MaxDownloadSize is declared outside the translated file; it is the
upper bound substituted whenever NoSizeLimit is requested.  Its value is 100
binary megabytes. -/
def MaxDownloadSize : Int := 104857600

/-- The version-prefixed alias built by Set with fmt.Sprintf of a version
and a name separated by a dot. -/
def versionedName (version : Int) (name : String) : String :=
  toString version ++ "." ++ name

/-- Outcome of a read: a returned blob, the ErrMetaNotFound error carrying
the resource name, or a Go runtime panic (out-of-range slice bounds). -/
inductive GetResult where
  | found (b : Blob)
  | notFound (resource : String)
  | panicked
  deriving DecidableEq, Repr

/-- The Go slice expression d[:size] with an int64 index: defined when
0 <= size <= len d, a runtime panic otherwise. -/
def sliceUpTo (d : Blob) (size : Int) : Option Blob :=
  if 0 ≤ size ∧ size ≤ (d.length : Int) then some (d.take size.toNat)
  else none

/-- The two-map store of storage/memorystore.go: data holds plain and
version-prefixed names, consistent holds content-addressed names. -/
structure MemoryStore where
  data : NameMap
  consistent : NameMap
  deriving DecidableEq, Repr

/-- NewMemoryStore: the seed mapping becomes the data map as given, and each
seed entry is digest-indexed into the consistent map; a nil seed gives two
empty maps.  No version parsing happens here. -/
def NewMemoryStore (cname : String → Blob → String) (initial : NameMap) :
    MemoryStore :=
  { data := initial,
    consistent :=
      initial.foldl (fun c p => mapSet c (cname p.1 p.2) p.2) [] }

/-- Get: lookup in the data map first, then in the consistent map, and
ErrMetaNotFound with the requested name when both miss. -/
def Get (s : MemoryStore) (name : String) : GetResult :=
  match mapGet s.data name with
  | some d => .found d
  | none =>
      match mapGet s.consistent name with
      | some d => .found d
      | none => .notFound name

/-- The reassignment GetSized applies to its size argument in the data
branch: the sentinel is replaced by the maximum download size. -/
def effSize (size : Int) : Int :=
  if size = NoSizeLimit then MaxDownloadSize else size

/-- GetSized: the same two-level lookup as Get.  In the data branch the
sentinel size is first replaced by MaxDownloadSize; in the consistent branch
the size argument is used as passed (the source performs no replacement
there).  A blob shorter than the effective size is returned whole, otherwise
the slice up to the size is returned, which panics for a negative size. -/
def GetSized (s : MemoryStore) (name : String) (size : Int) : GetResult :=
  match mapGet s.data name with
  | some d =>
      if (d.length : Int) < effSize size then .found d
      else
        match sliceUpTo d (effSize size) with
        | some p => .found p
        | none => .panicked
  | none =>
      match mapGet s.consistent name with
      | some d =>
          if (d.length : Int) < size then .found d
          else
            match sliceUpTo d size with
            | some p => .found p
            | none => .panicked
      | none => .notFound name

/-- Set: store the blob under the plain name; when the envelope parser
succeeds with version v, also store it under the version-prefixed alias in
the same data map; finally store it under its content-addressed name in the
consistent map.  The source performs these three writes in this order and
always returns nil. -/
def Set (cname : String → Blob → String) (pv : Blob → Option Int)
    (name : String) (meta : Blob) (s : MemoryStore) : MemoryStore :=
  { data :=
      match pv meta with
      | some version =>
          mapSet (mapSet s.data name meta) (versionedName version name) meta
      | none => mapSet s.data name meta,
    consistent := mapSet s.consistent (cname name meta) meta }

/-- SetMulti: Set applied to every entry of the argument mapping; always
returns nil. -/
def SetMulti (cname : String → Blob → String) (pv : Blob → Option Int)
    (metas : NameMap) (s : MemoryStore) : MemoryStore :=
  metas.foldl (fun st p => Set cname pv p.1 p.2 st) s

/-- Remove: when the plain name is present, recompute its content-addressed
name from the stored blob and delete both the plain entry and that digest
entry; when absent, do nothing.  The second component is the returned Go
error, which is nil on every path. -/
def Remove (cname : String → Blob → String) (name : String)
    (s : MemoryStore) : MemoryStore × Option String :=
  match mapGet s.data name with
  | some meta =>
      ({ data := mapDel s.data name,
         consistent := mapDel s.consistent (cname name meta) }, none)
  | none => (s, none)

/-- RemoveAll: reset the store to a freshly constructed empty one. -/
def RemoveAll (cname : String → Blob → String) (_s : MemoryStore) :
    MemoryStore :=
  NewMemoryStore cname []

/-- Location: the fixed human-readable label. -/
def Location (_s : MemoryStore) : String := "memory"

/-- ListFiles: the keys of the data map, usable with Get directly. -/
def ListFiles (s : MemoryStore) : List String :=
  s.data.map Prod.fst

theorem get_found_data (s : MemoryStore) (name : String) (d : Blob)
    (h : mapGet s.data name = some d) : Get s name = .found d := by
  unfold Get
  rw [h]

theorem get_found_consistent (s : MemoryStore) (name : String) (d : Blob)
    (h1 : mapGet s.data name = none)
    (h2 : mapGet s.consistent name = some d) : Get s name = .found d := by
  unfold Get
  rw [h1, h2]

theorem get_notfound (s : MemoryStore) (name : String)
    (h1 : mapGet s.data name = none)
    (h2 : mapGet s.consistent name = none) : Get s name = .notFound name := by
  unfold Get
  rw [h1, h2]

theorem versionedName_ne (v : Int) (name : String) :
    versionedName v name ≠ name := by
  intro h
  have hl := congrArg String.length h
  have hdot : ("." : String).length = 1 := rfl
  simp [versionedName, String.length_append, hdot] at hl

theorem set_data_parse (cname : String → Blob → String)
    (pv : Blob → Option Int) (name : String) (meta : Blob) (s : MemoryStore)
    (v : Int) (h : pv meta = some v) :
    (Set cname pv name meta s).data =
      mapSet (mapSet s.data name meta) (versionedName v name) meta := by
  simp [Set, h]

theorem set_data_noparse (cname : String → Blob → String)
    (pv : Blob → Option Int) (name : String) (meta : Blob) (s : MemoryStore)
    (h : pv meta = none) :
    (Set cname pv name meta s).data = mapSet s.data name meta := by
  simp [Set, h]

theorem set_consistent (cname : String → Blob → String)
    (pv : Blob → Option Int) (name : String) (meta : Blob) (s : MemoryStore) :
    (Set cname pv name meta s).consistent =
      mapSet s.consistent (cname name meta) meta := rfl

theorem mapGet_set_data_self (cname : String → Blob → String)
    (pv : Blob → Option Int) (name : String) (meta : Blob) (s : MemoryStore) :
    mapGet (Set cname pv name meta s).data name = some meta := by
  cases h : pv meta with
  | none =>
      rw [set_data_noparse cname pv name meta s h]
      exact mapGet_set_self _ _ _
  | some v =>
      rw [set_data_parse cname pv name meta s v h]
      rw [mapGet_set_ne _ _ _ _ (versionedName_ne v name).symm]
      exact mapGet_set_self _ _ _

theorem foldl_cname_absent (cname : String → Blob → String)
    (l : NameMap) (c : NameMap) (target : String)
    (h : ∀ p ∈ l, cname p.1 p.2 ≠ target) :
    mapGet (l.foldl (fun c p => mapSet c (cname p.1 p.2) p.2) c) target =
      mapGet c target := by
  induction l generalizing c with
  | nil => rfl
  | cons p rest ih =>
      rw [List.foldl_cons]
      rw [ih _ (fun q hq => h q (List.mem_cons_of_mem p hq))]
      exact mapGet_set_ne _ _ _ _
        (fun hq => h p (List.mem_cons_self p rest) hq.symm)

theorem foldl_cname_found (cname : String → Blob → String)
    (l : NameMap) (c : NameMap) (target : String) (B : Blob)
    (hex : ∃ p ∈ l, cname p.1 p.2 = target ∧ p.2 = B)
    (hall : ∀ p ∈ l, cname p.1 p.2 = target → p.2 = B) :
    mapGet (l.foldl (fun c p => mapSet c (cname p.1 p.2) p.2) c) target =
      some B := by
  induction l generalizing c with
  | nil => simp at hex
  | cons p rest ih =>
      rw [List.foldl_cons]
      by_cases hrest : ∃ q ∈ rest, cname q.1 q.2 = target ∧ q.2 = B
      · exact ih _ hrest
          (fun q hq hcq => hall q (List.mem_cons_of_mem p hq) hcq)
      · obtain ⟨q, hq, hcq, hqB⟩ := hex
        rcases List.mem_cons.mp hq with hqp | hqr
        · have hrest2 : ∀ r ∈ rest, cname r.1 r.2 ≠ target := by
            intro r hr hcr
            exact hrest ⟨r, hr, hcr,
              hall r (List.mem_cons_of_mem p hr) hcr⟩
          subst hqp
          rw [foldl_cname_absent cname rest _ target hrest2, hcq, hqB]
          exact mapGet_set_self _ _ _
        · exact absurd ⟨q, hqr, hcq, hqB⟩ hrest

/-- A small injective stand-in digest used only to instantiate the abstract
digest collaborator in concrete witnesses. -/
def digestEx (b : Blob) : Nat :=
  b.foldl (fun a n => a * 257 + n) 1

/-- A concrete consistent-name instance for witnesses: role name, a dot and
the rendered stand-in digest, mirroring the shape role.hexdigest used by the
real collaborator. -/
def cnameEx (r : String) (b : Blob) : String :=
  r ++ "." ++ Nat.repr (digestEx b)

/-- A parser instance for witnesses on which every blob decodes as an
envelope of version 1. -/
def pvOne : Blob → Option Int := fun _ => some 1

/-- A parser instance for witnesses on which no blob decodes as an
envelope. -/
def pvNone : Blob → Option Int := fun _ => none

/-- C2: for all blobs B and role names R, after Set(R, B) returns, Get(R)
returns exactly B with no error.  The plain-name entry is written first and
the version alias, when any, is a strictly longer name, so the plain lookup
always yields the new blob. -/
theorem get_after_set (cname : String → Blob → String)
    (pv : Blob → Option Int) (R : String) (B : Blob) (s : MemoryStore) :
    Get (Set cname pv R B s) R = .found B :=
  get_found_data _ _ _ (mapGet_set_data_self cname pv R B s)

/-- C3: after Set(R, B) returns, Get at the consistent name derived from R
and the digest of B returns exactly B, provided that consistent name is not
already bound in the plain-name index (Get consults the plain-name index
first, so a plain entry deliberately named like the consistent name would
shadow the digest entry). -/
theorem get_consistent_after_set (cname : String → Blob → String)
    (pv : Blob → Option Int) (R : String) (B : Blob) (s : MemoryStore)
    (h : mapGet s.data (cname R B) = none) :
    Get (Set cname pv R B s) (cname R B) = .found B := by
  cases hpv : pv B with
  | none =>
      by_cases hR : cname R B = R
      · apply get_found_data
        rw [set_data_noparse cname pv R B s hpv, hR]
        exact mapGet_set_self _ _ _
      · apply get_found_consistent
        · rw [set_data_noparse cname pv R B s hpv]
          rw [mapGet_set_ne _ _ _ _ hR]
          exact h
        · rw [set_consistent]
          exact mapGet_set_self _ _ _
  | some v =>
      by_cases hV : cname R B = versionedName v R
      · apply get_found_data
        rw [set_data_parse cname pv R B s v hpv, hV]
        exact mapGet_set_self _ _ _
      · by_cases hR : cname R B = R
        · apply get_found_data
          rw [set_data_parse cname pv R B s v hpv]
          rw [mapGet_set_ne _ _ _ _ hV, hR]
          exact mapGet_set_self _ _ _
        · apply get_found_consistent
          · rw [set_data_parse cname pv R B s v hpv]
            rw [mapGet_set_ne _ _ _ _ hV, mapGet_set_ne _ _ _ _ hR]
            exact h
          · rw [set_consistent]
            exact mapGet_set_self _ _ _

/-- Witness for C3 at a concrete input: an empty store, the role root with
blob byte 9, the concrete digest collaborator and the always-version-1
parser. -/
theorem get_consistent_after_set_witness :
    Get (Set cnameEx pvOne "root" [9] (NewMemoryStore cnameEx []))
      (cnameEx "root" [9]) = .found [9] :=
  get_consistent_after_set cnameEx pvOne "root" [9]
    (NewMemoryStore cnameEx []) (by decide)

/-- C4: when the blob parses as a signed-metadata envelope with integer
version V at least 0, Set also stores it under the version-prefixed alias,
so Get of the alias returns exactly the blob with no error. -/
theorem get_versioned_after_set (cname : String → Blob → String)
    (pv : Blob → Option Int) (R : String) (B : Blob) (V : Int)
    (s : MemoryStore) (hpv : pv B = some V) (hV : 0 ≤ V) :
    Get (Set cname pv R B s) (versionedName V R) = .found B := by
  apply get_found_data
  rw [set_data_parse cname pv R B s V hpv]
  exact mapGet_set_self _ _ _

/-- Witness for C4 at a concrete input: after setting root to blob byte 9
under the always-version-1 parser, the alias 1.root resolves to the blob. -/
theorem get_versioned_after_set_witness :
    Get (Set cnameEx pvOne "root" [9] (NewMemoryStore cnameEx []))
      (versionedName 1 "root") = .found [9] :=
  get_versioned_after_set cnameEx pvOne "root" [9] 1
    (NewMemoryStore cnameEx []) rfl (by decide)

/-- C5 counterexample: Set stores the version-prefixed alias in the same
data map that ListFiles enumerates, so after setting root with a blob that
parses at version 1 the listing contains 1.root, refuting the sentence that
version-prefixed alias names are excluded from the returned sequence. -/
theorem listFiles_contains_version_alias :
    "1.root" ∈
      ListFiles (Set cnameEx pvOne "root" [9] (NewMemoryStore cnameEx [])) := by
  decide

/-- C5 amended: ListFiles returns exactly the keys of the plain-name index,
so names held only in the digest index are excluded, while the
version-prefixed alias written by Set for a parsed blob is included. -/
theorem listFiles_plain_keys (cname : String → Blob → String)
    (pv : Blob → Option Int) (R : String) (B : Blob) (V : Int)
    (s : MemoryStore) (hpv : pv B = some V) :
    versionedName V R ∈ ListFiles (Set cname pv R B s) ∧
      ∀ N, (N ∈ ListFiles (Set cname pv R B s) ↔
        mapGet (Set cname pv R B s).data N ≠ none) := by
  constructor
  · unfold ListFiles
    rw [← mapGet_ne_none_iff]
    rw [set_data_parse cname pv R B s V hpv]
    rw [mapGet_set_self]
    simp
  · intro N
    unfold ListFiles
    exact (mapGet_ne_none_iff _ N).symm

/-- Witness for the amended C5 at a concrete input: the alias 1.root is
listed after setting root under the always-version-1 parser. -/
theorem listFiles_plain_keys_witness :
    versionedName 1 "root" ∈
      ListFiles (Set cnameEx pvOne "root" [9] (NewMemoryStore cnameEx [])) :=
  (listFiles_plain_keys cnameEx pvOne "root" [9] 1
    (NewMemoryStore cnameEx []) rfl).1

/-- C6: for a blob stored under a plain name, GetSized returns the whole
blob when it is shorter than the requested non-negative size and otherwise
exactly the first size bytes without error; with the NoSizeLimit sentinel
the effective cap is MaxDownloadSize, so a longer blob is truncated to that
cap; and any size at least the blob length returns the blob unmodified. -/
theorem getSized_truncation (s : MemoryStore) (R : String) (B : Blob)
    (h : mapGet s.data R = some B) :
    (∀ S : Int, 0 ≤ S →
        GetSized s R S =
          .found (if (B.length : Int) < S then B else B.take S.toNat)) ∧
      (MaxDownloadSize < (B.length : Int) →
        GetSized s R NoSizeLimit = .found (B.take MaxDownloadSize.toNat)) ∧
      ∀ S : Int, (B.length : Int) ≤ S → GetSized s R S = .found B := by
  have hbase : ∀ S : Int, 0 ≤ S →
      GetSized s R S =
        .found (if (B.length : Int) < S then B else B.take S.toNat) := by
    intro S hS
    have hes : effSize S = S := by
      have : S ≠ NoSizeLimit := by
        intro hc
        rw [hc] at hS
        exact absurd hS (by decide)
      simp [effSize, this]
    unfold GetSized
    rw [h, hes]
    by_cases hlt : (B.length : Int) < S
    · simp [hlt]
    · have hle : S ≤ (B.length : Int) := le_of_not_lt hlt
      simp [hlt, sliceUpTo, hS, hle]
  refine ⟨hbase, ?_, ?_⟩
  · intro hbig
    have hnl : ¬ ((B.length : Int) < MaxDownloadSize) := by
      omega
    have hle : MaxDownloadSize ≤ (B.length : Int) := le_of_lt hbig
    have hes : effSize NoSizeLimit = MaxDownloadSize := by
      simp [effSize]
    unfold GetSized
    rw [h, hes]
    have hnn : (0 : Int) ≤ MaxDownloadSize := by decide
    simp [hnl, sliceUpTo, hnn, hle]
  · intro S hS
    have hnn : (0 : Int) ≤ S := le_trans (Int.natCast_nonneg B.length) hS
    rw [hbase S hnn]
    by_cases hlt : (B.length : Int) < S
    · simp [hlt]
    · have hSeq : S = (B.length : Int) := le_antisymm (le_of_not_lt hlt) hS
      simp [hlt, hSeq]

/-- Witness for C6 at a concrete input: a three-byte blob under role r is
truncated to its first two bytes at size 2. -/
theorem getSized_truncation_witness :
    GetSized (NewMemoryStore cnameEx [("r", [0, 1, 2])]) "r" 2 =
      .found [0, 1] := by
  have h := (getSized_truncation (NewMemoryStore cnameEx [("r", [0, 1, 2])])
    "r" [0, 1, 2] (by decide)).1 2 (by decide)
  rw [h]
  decide

/-- C7: after storing a blob that parses at version V under role R and then
removing R, the plain name and the consistent name both report
ErrMetaNotFound while the version-prefixed alias still resolves to the blob.
The hypotheses rule out pre-existing entries that deliberately collide with
the consistent name or the role name across the two indexes. -/
theorem remove_preserves_version_alias (cname : String → Blob → String)
    (pv : Blob → Option Int) (R : String) (B : Blob) (V : Int)
    (s : MemoryStore) (hpv : pv B = some V)
    (hcons : mapGet s.consistent R = none)
    (hdata : mapGet s.data (cname R B) = none)
    (hne : cname R B ≠ versionedName V R) :
    Get ((Remove cname R (Set cname pv R B s)).1) R = .notFound R ∧
      Get ((Remove cname R (Set cname pv R B s)).1) (cname R B) =
        .notFound (cname R B) ∧
      Get ((Remove cname R (Set cname pv R B s)).1) (versionedName V R) =
        .found B := by
  have hd1 : mapGet (Set cname pv R B s).data R = some B :=
    mapGet_set_data_self cname pv R B s
  have h2d : (Remove cname R (Set cname pv R B s)).1.data =
      mapDel (Set cname pv R B s).data R := by
    unfold Remove
    rw [hd1]
  have h2c : (Remove cname R (Set cname pv R B s)).1.consistent =
      mapDel (Set cname pv R B s).consistent (cname R B) := by
    unfold Remove
    rw [hd1]
  have hdataeq : (Set cname pv R B s).data =
      mapSet (mapSet s.data R B) (versionedName V R) B :=
    set_data_parse cname pv R B s V hpv
  refine ⟨?_, ?_, ?_⟩
  · apply get_notfound
    · rw [h2d]
      exact mapGet_del_self _ _
    · rw [h2c]
      by_cases hRc : R = cname R B
      · rw [← hRc]
        exact mapGet_del_self _ _
      · rw [mapGet_del_ne _ _ _ hRc]
        rw [set_consistent cname pv R B s]
        rw [mapGet_set_ne _ _ _ _ hRc]
        exact hcons
  · apply get_notfound
    · rw [h2d]
      by_cases hcR : cname R B = R
      · rw [hcR]
        exact mapGet_del_self _ _
      · rw [mapGet_del_ne _ _ _ hcR]
        rw [hdataeq]
        rw [mapGet_set_ne _ _ _ _ hne]
        rw [mapGet_set_ne _ _ _ _ hcR]
        exact hdata
    · rw [h2c]
      exact mapGet_del_self _ _
  · apply get_found_data
    rw [h2d]
    rw [mapGet_del_ne _ _ _ (versionedName_ne V R)]
    rw [hdataeq]
    exact mapGet_set_self _ _ _

/-- Witness for C7 at a concrete input: on a fresh store with the concrete
collaborators, the alias 1.root still resolves to the blob after removing
root. -/
theorem remove_preserves_version_alias_witness :
    Get ((Remove cnameEx "root"
        (Set cnameEx pvOne "root" [9] (NewMemoryStore cnameEx []))).1)
      (versionedName 1 "root") = .found [9] :=
  (remove_preserves_version_alias cnameEx pvOne "root" [9] 1
    (NewMemoryStore cnameEx []) rfl (by decide) (by decide) (by decide)).2.2

/-- C8: removing a name absent from the plain-name index returns the nil
error and leaves both indexes unchanged. -/
theorem remove_absent_noop (cname : String → Blob → String) (N : String)
    (s : MemoryStore) (h : mapGet s.data N = none) :
    Remove cname N s = (s, none) := by
  unfold Remove
  rw [h]

/-- Witness for C8 at a concrete input: removing a never-set name from a
fresh store returns the store unchanged with a nil error. -/
theorem remove_absent_noop_witness :
    Remove cnameEx "ghost" (NewMemoryStore cnameEx []) =
      (NewMemoryStore cnameEx [], none) :=
  remove_absent_noop cnameEx "ghost" (NewMemoryStore cnameEx []) (by decide)

/-- C9: the constructor stores the seed mapping as the plain-name index
unchanged, so no version-prefixed alias is synthesized, and every seed entry
is retrievable both by its role name and by its consistent name.  The
hypotheses rule out a seed key that collides with the consistent name and
two seed entries of different content sharing one consistent name. -/
theorem newMemoryStore_seed (cname : String → Blob → String)
    (initial : NameMap) (R : String) (B : Blob)
    (hseed : mapGet initial R = some B)
    (hshadow : mapGet initial (cname R B) = none)
    (huniq : ∀ p ∈ initial, cname p.1 p.2 = cname R B → p.2 = B) :
    (NewMemoryStore cname initial).data = initial ∧
      Get (NewMemoryStore cname initial) R = .found B ∧
      Get (NewMemoryStore cname initial) (cname R B) = .found B := by
  refine ⟨rfl, get_found_data _ _ _ hseed, ?_⟩
  apply get_found_consistent
  · exact hshadow
  · show mapGet (initial.foldl (fun c p => mapSet c (cname p.1 p.2) p.2) [])
      (cname R B) = some B
    exact foldl_cname_found cname initial [] (cname R B) B
      ⟨(R, B), mapGet_mem initial R B hseed, rfl, rfl⟩ huniq

/-- Witness for C9 at a concrete input: a two-entry seed, with the root
entry retrievable by role name. -/
theorem newMemoryStore_seed_witness :
    Get (NewMemoryStore cnameEx [("root", [9]), ("targets", [7])]) "root" =
      .found [9] :=
  (newMemoryStore_seed cnameEx [("root", [9]), ("targets", [7])] "root" [9]
    (by decide) (by decide) (by decide)).2.1

/-- C10: Remove recomputes the digest entry from the blob currently stored
under the plain name, so after overwriting role R from B1 to B2 and then
removing R, the consistent name of the overwritten B1 still resolves to B1.
The hypotheses record that the two consistent names differ and that the
consistent name of B1 is not shadowed by a plain entry or a version
alias. -/
theorem remove_keeps_overwritten_digest (cname : String → Blob → String)
    (pv : Blob → Option Int) (R : String) (B1 B2 : Blob) (s : MemoryStore)
    (hB : B1 ≠ B2)
    (hcc : cname R B1 ≠ cname R B2)
    (hdata : mapGet s.data (cname R B1) = none)
    (hv1 : ∀ V, pv B1 = some V → versionedName V R ≠ cname R B1)
    (hv2 : ∀ V, pv B2 = some V → versionedName V R ≠ cname R B1) :
    Get ((Remove cname R
        (Set cname pv R B2 (Set cname pv R B1 s))).1) (cname R B1) =
      .found B1 := by
  have hd2 : mapGet (Set cname pv R B2 (Set cname pv R B1 s)).data R =
      some B2 :=
    mapGet_set_data_self cname pv R B2 (Set cname pv R B1 s)
  have h3d : (Remove cname R (Set cname pv R B2 (Set cname pv R B1 s))).1.data =
      mapDel (Set cname pv R B2 (Set cname pv R B1 s)).data R := by
    unfold Remove
    rw [hd2]
  have h3c : (Remove cname R
        (Set cname pv R B2 (Set cname pv R B1 s))).1.consistent =
      mapDel (Set cname pv R B2 (Set cname pv R B1 s)).consistent
        (cname R B2) := by
    unfold Remove
    rw [hd2]
  apply get_found_consistent
  · rw [h3d]
    by_cases hcR : cname R B1 = R
    · rw [hcR]
      exact mapGet_del_self _ _
    · rw [mapGet_del_ne _ _ _ hcR]
      have hinner : mapGet (Set cname pv R B1 s).data (cname R B1) = none := by
        cases hp1 : pv B1 with
        | none =>
            rw [set_data_noparse cname pv R B1 s hp1]
            rw [mapGet_set_ne _ _ _ _ hcR]
            exact hdata
        | some V1 =>
            rw [set_data_parse cname pv R B1 s V1 hp1]
            rw [mapGet_set_ne _ _ _ _ (hv1 V1 hp1).symm]
            rw [mapGet_set_ne _ _ _ _ hcR]
            exact hdata
      cases hp2 : pv B2 with
      | none =>
          rw [set_data_noparse cname pv R B2 _ hp2]
          rw [mapGet_set_ne _ _ _ _ hcR]
          exact hinner
      | some V2 =>
          rw [set_data_parse cname pv R B2 _ V2 hp2]
          rw [mapGet_set_ne _ _ _ _ (hv2 V2 hp2).symm]
          rw [mapGet_set_ne _ _ _ _ hcR]
          exact hinner
  · rw [h3c]
    rw [mapGet_del_ne _ _ _ hcc]
    rw [set_consistent cname pv R B2 (Set cname pv R B1 s)]
    rw [mapGet_set_ne _ _ _ _ hcc]
    rw [set_consistent cname pv R B1 s]
    exact mapGet_set_self _ _ _

/-- Witness for C10 at a concrete input: overwrite root from blob byte 1 to
blob byte 2 and remove it; the consistent name of the first blob still
resolves. -/
theorem remove_keeps_overwritten_digest_witness :
    Get ((Remove cnameEx "root"
        (Set cnameEx pvNone "root" [2]
          (Set cnameEx pvNone "root" [1] (NewMemoryStore cnameEx [])))).1)
      (cnameEx "root" [1]) = .found [1] :=
  remove_keeps_overwritten_digest cnameEx pvNone "root" [1] [2]
    (NewMemoryStore cnameEx []) (by decide) (by decide) (by decide)
    (fun V h => nomatch h) (fun V h => nomatch h)

/-- C1: the source replaces the NoSizeLimit sentinel by MaxDownloadSize only
in the plain-name branch of GetSized; in the consistent branch the sentinel
-1 survives, the length test fails for every blob, and the Go slice
expression with a negative bound panics at runtime.  This theorem records
that for every name stored only under its consistent name, GetSized with
NoSizeLimit reaches that panic instead of returning the blob. -/
theorem getSized_digest_nosizelimit (s : MemoryStore) (name : String)
    (d : Blob) (h1 : mapGet s.data name = none)
    (h2 : mapGet s.consistent name = some d) :
    GetSized s name NoSizeLimit = .panicked := by
  unfold GetSized
  rw [h1, h2]
  have hnn : (0 : Int) ≤ (d.length : Int) := Int.natCast_nonneg _
  have hlt : ¬ ((d.length : Int) < NoSizeLimit) := by
    simp only [NoSizeLimit]
    omega
  have hsl : sliceUpTo d NoSizeLimit = none := by
    unfold sliceUpTo NoSizeLimit
    rw [if_neg]
    intro hc
    exact absurd hc.1 (by decide)
  show (if (d.length : Int) < NoSizeLimit then GetResult.found d
      else
        match sliceUpTo d NoSizeLimit with
        | some p => GetResult.found p
        | none => GetResult.panicked) = GetResult.panicked
  rw [if_neg hlt, hsl]

/-- Witness for C1 at a concrete failing input: a store seeded with one
blob, queried by the consistent name of that blob with the NoSizeLimit
sentinel, panics. -/
theorem getSized_digest_nosizelimit_witness :
    GetSized (NewMemoryStore cnameEx [("root", [9])]) (cnameEx "root" [9])
      NoSizeLimit = .panicked :=
  getSized_digest_nosizelimit (NewMemoryStore cnameEx [("root", [9])])
    (cnameEx "root" [9]) [9] (by decide) (by decide)

end MemStore
